import Mathlib

/-!
# Verification of the `pi-provider-kiro` streaming core

A shallow embedding, in Lean 4, of the streaming pipeline of the
`pi-provider-kiro` repository, together with theorems settling the frozen
claims about it.  Strings of the TypeScript source are modelled as
`List Char`; JavaScript values parsed from JSON are modelled by the
inductive `JsonV`; the external `JSON.parse` / `JSON.stringify` library
calls are abstract parameters (`parse : List Char → Option α`,
`stringify : JsonV → List Char`) of the definitions that invoke them, so
every theorem holds for every behaviour of those collaborators.

Embedded components (file ↦ section):
* `src/retry.ts`            ↦ `exponentialBackoff`, `decideRetry`
* `src/event-parser.ts`     ↦ `findJsonEnd`, `parseKiroEvent`, `parseKiroEvents`
* `src/thinking-parser.ts`  ↦ `ThinkingTagParser` state machine
* `src/bracket-tool-parser.ts` ↦ `parseBracketToolCalls`
* `src/stream.ts`           ↦ content deduplication fold, retry loop,
                              finalize stop-reason computation
-/

/-! ## Basic character utilities -/

/-- ASCII whitespace, the fragment of JavaScript's `\s` / `trim()` whitespace
class exercised by this pipeline (space, tab, newline, carriage return,
vertical tab, form feed). -/
def isWS (c : Char) : Bool :=
  c = ' ' || c = '\t' || c = '\n' || c = '\r' || c = '\x0b' || c = '\x0c'

/-- JavaScript `String.prototype.trim`: strip whitespace from both ends. -/
def jsTrim (s : List Char) : List Char :=
  ((s.dropWhile isWS).reverse.dropWhile isWS).reverse

/-- JavaScript `String.prototype.includes`: `pat` occurs as a contiguous
substring of `s`. -/
def jsIncludes (s pat : List Char) : Bool :=
  pat.isPrefixOf s ||
    match s with
    | [] => false
    | _ :: rest => jsIncludes rest pat

/-! ## `src/retry.ts` — retry decision engine -/

/-- `src/retry.ts` `exponentialBackoff`: `Math.min(baseMs * 2 ** attempt, maxMs)`. -/
def exponentialBackoff (attempt baseMs maxMs : Nat) : Nat :=
  min (baseMs * 2 ^ attempt) maxMs

inductive RetryStrategy where
  | reduce
  | backoff
  | none
deriving DecidableEq, Repr

structure RetryDecision where
  shouldRetry : Bool
  delayMs : Nat
  strategy : RetryStrategy
deriving DecidableEq, Repr

/-- `src/retry.ts` `TOO_BIG_PATTERNS`. -/
def TOO_BIG_PATTERNS : List (List Char) :=
  ["CONTENT_LENGTH_EXCEEDS_THRESHOLD".toList, "Input is too long".toList,
   "Improperly formed".toList]

/-- `src/retry.ts` `decideRetry(status, errorText, attempt, maxRetries)`.
`errorText.includes(p)` is the substring test `jsIncludes`. -/
def decideRetry (status : Nat) (errorText : List Char) (attempt maxRetries : Nat) :
    RetryDecision :=
  if attempt ≥ maxRetries then ⟨false, 0, .none⟩
  else if status = 413 ∨ (status = 400 ∧ TOO_BIG_PATTERNS.any (jsIncludes errorText ·)) then
    ⟨true, 0, .reduce⟩
  else if status = 429 then ⟨true, exponentialBackoff attempt 1000 30000, .backoff⟩
  else if 500 ≤ status ∧ status < 600 then
    ⟨true, exponentialBackoff attempt 1000 30000, .backoff⟩
  else if status = 403 then ⟨true, exponentialBackoff attempt 500 30000, .backoff⟩
  else ⟨false, 0, .none⟩

/-- The claim's decision table for `decideRetry`, written independently from
the spec's words (§4.6), with the delay formulae inlined as stated there. -/
def decideRetrySpec (status : Nat) (errorText : List Char) (attempt maxAttempts : Nat) :
    RetryDecision :=
  if attempt ≥ maxAttempts then ⟨false, 0, .none⟩
  else if status = 413 then ⟨true, 0, .reduce⟩
  else if status = 400 ∧ TOO_BIG_PATTERNS.any (jsIncludes errorText ·) then
    ⟨true, 0, .reduce⟩
  else if status = 429 then ⟨true, min (1000 * 2 ^ attempt) 30000, .backoff⟩
  else if 500 ≤ status ∧ status < 600 then ⟨true, min (1000 * 2 ^ attempt) 30000, .backoff⟩
  else if status = 403 then ⟨true, min (500 * 2 ^ attempt) 30000, .backoff⟩
  else ⟨false, 0, .none⟩

/-! ## `src/stream.ts` — content deduplication fold (reader loop, lines 316–329)

State threaded through the `content` branch of the event loop of
`streamKiro`: `lastContentData` (initialised to `""` at line 258),
`totalContent` (the token-counted answer text), the lazily allocated text
block and the emitted `text_delta` payloads. -/

structure ContentFoldState where
  lastContentData : List Char
  totalContent : List Char
  textBlockIndex : Option Nat
  textBlocks : List (List Char)
  deltas : List (List Char)
deriving DecidableEq, Repr

def initContentState : ContentFoldState :=
  { lastContentData := [], totalContent := [], textBlockIndex := none,
    textBlocks := [], deltas := [] }

/-- One `content` event of `streamKiro`'s reader loop (stream.ts 316–329):
a fragment equal to `lastContentData` is skipped; otherwise the text block
is opened on first use (pushing `""` then appending, i.e. pushing the data)
and a `text_delta` with the fragment is emitted. -/
def processContentEvent (st : ContentFoldState) (d : List Char) : ContentFoldState :=
  if d = st.lastContentData then st
  else
    match st.textBlockIndex with
    | none =>
        { st with lastContentData := d, totalContent := st.totalContent ++ d,
                  textBlockIndex := some st.textBlocks.length,
                  textBlocks := st.textBlocks ++ [d],
                  deltas := st.deltas ++ [d] }
    | some i =>
        { st with lastContentData := d, totalContent := st.totalContent ++ d,
                  textBlocks := st.textBlocks.set i ((st.textBlocks.getD i []) ++ d),
                  deltas := st.deltas ++ [d] }

def processContents (st : ContentFoldState) (ds : List (List Char)) : ContentFoldState :=
  ds.foldl processContentEvent st

/-- Deduplication relative to an explicit previous fragment: a fragment equal
to the predecessor is dropped, an emitted fragment becomes the new
predecessor. -/
def dedupFromPred (prev : List Char) : List (List Char) → List (List Char)
  | [] => []
  | d :: rest => if d = prev then dedupFromPred prev rest else d :: dedupFromPred d rest

/-- The deduplication the claim states: only a fragment byte-identical to the
immediately preceding fragment is dropped; the first fragment has no
predecessor and is always emitted. -/
def dedupClaimC7 : List (List Char) → List (List Char)
  | [] => []
  | d :: rest => d :: dedupFromPred d rest

/-! ## `src/stream.ts` — finalize: tool-call filtering and stop reason -/

inductive StopReasonK where
  | stop
  | toolUse
  | length
  | aborted
  | error
deriving DecidableEq, Repr

/-- `KiroToolCallState` of stream.ts: one assembled tool call. -/
structure KiroToolCallState where
  toolUseId : List Char
  name : List Char
  input : List Char
deriving DecidableEq, Repr

/-- The finalize filter of stream.ts lines 393–409: a tool call whose trimmed
input is empty is skipped (`continue`), as is one whose input `JSON.parse`
rejects; the survivors are emitted as `toolCall` blocks with their parsed
arguments. `parse` abstracts `JSON.parse`. -/
def survivingToolCalls {α : Type} (parse : List Char → Option α)
    (toolCalls : List KiroToolCallState) : List (KiroToolCallState × α) :=
  toolCalls.filterMap fun tc =>
    if jsTrim tc.input = [] then none
    else (parse tc.input).map fun args => (tc, args)

/-- The stop-reason computation of stream.ts lines 430–434, over the
*unfiltered* assembled `toolCalls` list (bracket-fallback calls included):
`if (!receivedContextUsage && toolCalls.length === 0) length else
(toolCalls.length > 0 ? toolUse : stop)`. -/
def finalStopReason (receivedContextUsage : Bool) (toolCalls : List KiroToolCallState) :
    StopReasonK :=
  if ¬receivedContextUsage ∧ toolCalls.isEmpty then .length
  else if ¬toolCalls.isEmpty then .toolUse else .stop

/-- The stop reason the claim states: `toolUse` when a tool call *survived the
input filtering*, else `length` when no context-usage event was observed,
else `stop`. -/
def claimStopReasonC1 {α : Type} (parse : List Char → Option α)
    (receivedContextUsage : Bool) (toolCalls : List KiroToolCallState) : StopReasonK :=
  if ¬(survivingToolCalls parse toolCalls).isEmpty then .toolUse
  else if ¬receivedContextUsage then .length
  else .stop

/-- The claim's stop-reason rule with the one correction the counterexample
forces: "survived the input filtering" becomes "was assembled" — `toolUse`
if any tool call was assembled, else `length` if no context-usage event was
observed, else `stop`. -/
def claimStopReasonC1Amended (receivedContextUsage : Bool)
    (toolCalls : List KiroToolCallState) : StopReasonK :=
  if ¬toolCalls.isEmpty then .toolUse
  else if ¬receivedContextUsage then .length
  else .stop

/-! ## `src/stream.ts` — the attempt/retry loop (lines 99–102, 238–250, 439–444)

The control skeleton of `while (retryCount <= maxRetries) { ... }`: each
iteration issues exactly one `fetch`; a non-ok response consults
`decideRetry`; a retryable decision increments `retryCount` and loops (the
`reduce` factor update and the backoff sleep do not affect control flow); a
non-retryable decision throws, and the surrounding `catch` emits one
terminal `error` event whose stop reason is `aborted` when the external
signal fired, else `error`.  A successful response that streams to
completion ends the loop with a `done` event (`break`). -/

/-- What one attempt's `fetch` comes back as: an ok response whose body
streams to completion, or an HTTP error with a status and a body text. -/
inductive AttemptOutcome where
  | success
  | httpError (status : Nat) (errText : List Char)

/-- How the one event sequence of a call ends.  `fellThrough` marks the
while-condition failing with no terminal pushed; it is unreachable because
`decideRetry` only retries while `retryCount < maxRetries`. -/
inductive TerminalEvent where
  | doneEvent
  | errorEvent (reason : StopReasonK)
  | fellThrough
deriving DecidableEq, Repr

/-- The retry loop of `streamKiro`, counting issued request attempts.
`oc i` is the outcome of the fetch of attempt `i` (`i` = the value of
`retryCount` when it is issued); returns (number of fetches, terminal
event). -/
def streamRetryLoop (oc : Nat → AttemptOutcome) (aborted : Bool)
    (maxRetries retryCount : Nat) : Nat × TerminalEvent :=
  if h : retryCount ≤ maxRetries then
    match oc retryCount with
    | .success => (1, .doneEvent)
    | .httpError status errText =>
        let d := decideRetry status errText retryCount maxRetries
        if d.shouldRetry then
          let r := streamRetryLoop oc aborted maxRetries (retryCount + 1)
          (r.1 + 1, r.2)
        else (1, .errorEvent (if aborted then .aborted else .error))
  else (0, .fellThrough)
termination_by maxRetries + 1 - retryCount
decreasing_by omega

/-! ## `src/event-parser.ts` — the event classifier `parseKiroEvent`

A JSON value as `JSON.parse` produces it.  Objects are field lists with
distinct keys (`JSON.parse` keeps one value per key). -/

inductive JsonV where
  | null
  | bool (b : Bool)
  | num (n : Int)
  | str (s : List Char)
  | arr (elems : List JsonV)
  | obj (fields : List (List Char × JsonV))

/-- A parsed top-level JSON object, as the classifier receives it
(`Record<string, unknown>`). -/
abbrev KiroObj := List (List Char × JsonV)

/-- JavaScript property access `o.k` on a parsed object: the field's value,
or `undefined` (`none`) when absent. -/
def jsField (o : KiroObj) (k : List Char) : Option JsonV :=
  match o with
  | [] => none
  | (k', v) :: rest => if k' = k then some v else jsField rest k

/-! The field keys the classifier reads, named so that statements and proofs
can treat them as atoms. -/

def kContent : List Char := "content".toList

def kName : List Char := "name".toList

def kToolUseId : List Char := "toolUseId".toList

def kInput : List Char := "input".toList

def kStop : List Char := "stop".toList

def kCtxUsage : List Char := "contextUsagePercentage".toList

def kFollowup : List Char := "followupPrompt".toList

def kUsage : List Char := "usage".toList

def kInputTokens : List Char := "inputTokens".toList

def kOutputTokens : List Char := "outputTokens".toList

/-- JavaScript truthiness of a parsed JSON value (`undefined` is handled by
`optTruthy`): `null`, `false`, `0` and `""` are falsy, every array and
object is truthy. -/
def truthy : JsonV → Bool
  | .null => false
  | .bool b => b
  | .num n => n != 0
  | .str s => !s.isEmpty
  | .arr _ => true
  | .obj _ => true

def optTruthy : Option JsonV → Bool
  | none => false
  | some v => truthy v

/-- `typeof v === "object"` for a parsed JSON value: objects, arrays and
`null`. -/
def isObjType : JsonV → Bool
  | .null => true
  | .arr _ => true
  | .obj _ => true
  | _ => false

/-- `Object.keys(v).length` for a parsed JSON value (array indices count as
keys; non-objects have none). -/
def keysLength : JsonV → Nat
  | .obj fields => fields.length
  | .arr elems => elems.length
  | _ => 0

/-- The typed stream events of `src/event-parser.ts` (`KiroStreamEvent`),
with field payloads kept as parsed JSON values where the source merely
casts. -/
inductive KiroEventT where
  | content (data : JsonV)
  | toolUse (name toolUseId : JsonV) (input : List Char) (stop : Option JsonV)
  | toolUseInput (input : List Char)
  | toolUseStop (stop : JsonV)
  | contextUsage (pct : JsonV)
  | followupPrompt (data : JsonV)
  | usage (inputTokens outputTokens : Option JsonV)

/-- The `toolUse` input normalisation of `parseKiroEvent` (lines 45–52):
`typeof input === "string" ? input : (input && typeof input === "object" &&
Object.keys(input).length > 0 ? JSON.stringify(input) : "")`.  `stringify`
abstracts `JSON.stringify`. -/
def normalizeToolUseInput (stringify : JsonV → List Char) (input : Option JsonV) :
    List Char :=
  match input with
  | some (.str s) => s
  | some v => if truthy v && isObjType v && keysLength v > 0 then stringify v else []
  | none => []

/-- `src/event-parser.ts` `parseKiroEvent`, as its caller uses it (inside
`try`): each branch in source order.  The one branch that can throw —
`parsed.usage` being `null`, whose property access raises a `TypeError`
swallowed by the caller's `catch` — is modelled as `none` (event dropped). -/
def parseKiroEvent (stringify : JsonV → List Char) (o : KiroObj) : Option KiroEventT :=
  match jsField o kContent with
  | some v => some (.content v)
  | none =>
    if optTruthy (jsField o kName) && optTruthy (jsField o kToolUseId) then
      some (.toolUse ((jsField o kName).getD .null)
        ((jsField o kToolUseId).getD .null)
        (normalizeToolUseInput stringify (jsField o kInput))
        (jsField o kStop))
    else if (jsField o kInput).isSome && !optTruthy (jsField o kName) then
      some (.toolUseInput
        (match jsField o kInput with
         | some (.str s) => s
         | some v => stringify v
         | none => []))
    else if (jsField o kStop).isSome &&
        (jsField o kCtxUsage).isNone then
      some (.toolUseStop ((jsField o kStop).getD .null))
    else if (jsField o kCtxUsage).isSome then
      some (.contextUsage ((jsField o kCtxUsage).getD .null))
    else if (jsField o kFollowup).isSome then
      some (.followupPrompt ((jsField o kFollowup).getD .null))
    else
      match jsField o kUsage with
      | some .null => none
      | some (.obj uf) =>
          some (.usage (jsField uf kInputTokens) (jsField uf kOutputTokens))
      | some _ => some (.usage none none)
      | none => none

/-- One rule of the precedence table: a guard and the event it builds. -/
abbrev C2Rule := (KiroObj → Bool) × (KiroObj → Option KiroEventT)

/-- First-match evaluation of an ordered rule list (the spec's "encode the
precedence order as data"). -/
def firstMatching (rules : List C2Rule) (o : KiroObj) : Option KiroEventT :=
  match rules with
  | [] => none
  | r :: rest => if r.1 o then r.2 o else firstMatching rest o

/-- §4.2's precedence table *as the claim states it*: rules 2 and 3 test
mere field **presence** of `name` (and `toolUseId`). -/
def specTableAsWritten (stringify : JsonV → List Char) : List C2Rule :=
  [(fun o => (jsField o kContent).isSome,
    fun o => some (.content ((jsField o kContent).getD .null))),
   (fun o => (jsField o kName).isSome && (jsField o kToolUseId).isSome,
    fun o => some (.toolUse ((jsField o kName).getD .null)
      ((jsField o kToolUseId).getD .null)
      (normalizeToolUseInput stringify (jsField o kInput))
      (jsField o kStop))),
   (fun o => (jsField o kInput).isSome && (jsField o kName).isNone,
    fun o => some (.toolUseInput
      (match jsField o kInput with
       | some (.str s) => s
       | some v => stringify v
       | none => []))),
   (fun o => (jsField o kStop).isSome &&
      (jsField o kCtxUsage).isNone,
    fun o => some (.toolUseStop ((jsField o kStop).getD .null))),
   (fun o => (jsField o kCtxUsage).isSome,
    fun o => some (.contextUsage ((jsField o kCtxUsage).getD .null))),
   (fun o => (jsField o kFollowup).isSome,
    fun o => some (.followupPrompt ((jsField o kFollowup).getD .null))),
   (fun o => (jsField o kUsage).isSome,
    fun o => some (.usage
      (match jsField o kUsage with
       | some (.obj uf) => jsField uf kInputTokens
       | _ => none)
      (match jsField o kUsage with
       | some (.obj uf) => jsField uf kOutputTokens
       | _ => none)))]

/-- The precedence table **amended** to what the code does: rules 2 and 3
test `name`/`toolUseId` for JS truthiness instead of presence, and rule 7
drops an object whose `usage` value is `null` (the property access throws
and the caller's `catch` skips the fragment). -/
def specTableAmended (stringify : JsonV → List Char) : List C2Rule :=
  [(fun o => (jsField o kContent).isSome,
    fun o => some (.content ((jsField o kContent).getD .null))),
   (fun o => optTruthy (jsField o kName) && optTruthy (jsField o kToolUseId),
    fun o => some (.toolUse ((jsField o kName).getD .null)
      ((jsField o kToolUseId).getD .null)
      (normalizeToolUseInput stringify (jsField o kInput))
      (jsField o kStop))),
   (fun o => (jsField o kInput).isSome && !optTruthy (jsField o kName),
    fun o => some (.toolUseInput
      (match jsField o kInput with
       | some (.str s) => s
       | some v => stringify v
       | none => []))),
   (fun o => (jsField o kStop).isSome &&
      (jsField o kCtxUsage).isNone,
    fun o => some (.toolUseStop ((jsField o kStop).getD .null))),
   (fun o => (jsField o kCtxUsage).isSome,
    fun o => some (.contextUsage ((jsField o kCtxUsage).getD .null))),
   (fun o => (jsField o kFollowup).isSome,
    fun o => some (.followupPrompt ((jsField o kFollowup).getD .null))),
   (fun o => match jsField o kUsage with
      | some .null => false
      | some _ => true
      | none => false,
    fun o => some (.usage
      (match jsField o kUsage with
       | some (.obj uf) => jsField uf kInputTokens
       | _ => none)
      (match jsField o kUsage with
       | some (.obj uf) => jsField uf kOutputTokens
       | _ => none)))]

/-! ## `src/thinking-parser.ts` — the thinking tag segmenter

`ThinkingTagParser` holds mutable fields plus the shared `output.content`
list and the event stream it pushes to; the state record carries all of
them.  Content blocks here are the two kinds the segmenter writes. -/

inductive Block where
  | text (s : List Char)
  | thinking (s : List Char)
deriving DecidableEq, Repr

inductive TPEvent where
  | text_start (i : Nat)
  | text_delta (i : Nat) (delta : List Char)
  | thinking_start (i : Nat)
  | thinking_delta (i : Nat) (delta : List Char)
  | thinking_end (i : Nat) (content : List Char)
deriving DecidableEq, Repr

def THINKING_START_TAG : List Char := "<thinking>".toList

def THINKING_END_TAG : List Char := "</thinking>".toList

/-- `THINKING_TAG_VARIANTS`: recognised open/close tag pairs, in source
order. -/
def THINKING_TAG_VARIANTS : List (List Char × List Char) :=
  [("<thinking>".toList, "</thinking>".toList),
   ("<think>".toList, "</think>".toList),
   ("<reasoning>".toList, "</reasoning>".toList),
   ("<thought>".toList, "</thought>".toList)]

/-- `Math.max(...)` over the open-tag lengths (= 11, from `<reasoning>`). -/
def MAX_OPEN_TAG_LEN : Nat :=
  (THINKING_TAG_VARIANTS.map (fun v => v.1.length)).foldr max 0

/-- `Math.max(...)` over the close-tag lengths (= 12, from `</reasoning>`). -/
def MAX_CLOSE_TAG_LEN : Nat :=
  (THINKING_TAG_VARIANTS.map (fun v => v.2.length)).foldr max 0

structure TPState where
  textBuffer : List Char
  inThinking : Bool
  thinkingExtracted : Bool
  thinkingBlockIndex : Option Nat
  textBlockIndex : Option Nat
  activeEndTag : List Char
  content : List Block
  events : List TPEvent
deriving DecidableEq, Repr

def initTPState : TPState :=
  { textBuffer := [], inThinking := false, thinkingExtracted := false,
    thinkingBlockIndex := none, textBlockIndex := none,
    activeEndTag := THINKING_END_TAG, content := [], events := [] }

/-- `block.text += d` at index `i` (the index always holds a text block when
the parser's invariants hold; otherwise this is the identity). -/
def updateTextBlock (content : List Block) (i : Nat) (d : List Char) : List Block :=
  match content.get? i with
  | some (.text t) => content.set i (.text (t ++ d))
  | _ => content

/-- `block.thinking += d` at index `i`. -/
def updateThinkingBlock (content : List Block) (i : Nat) (d : List Char) : List Block :=
  match content.get? i with
  | some (.thinking t) => content.set i (.thinking (t ++ d))
  | _ => content

/-- The `thinking` text stored at index `i`. -/
def blockThinkingAt (content : List Block) (i : Nat) : List Char :=
  match content.get? i with
  | some (.thinking t) => t
  | _ => []

/-- `emitText` (thinking-parser.ts 137–146): allocate the text slot on first
use (push an empty block, emit `text_start`), then append and emit
`text_delta`. -/
def emitText (s : TPState) (text : List Char) : TPState :=
  match s.textBlockIndex with
  | none =>
      let idx := s.content.length
      { s with textBlockIndex := some idx,
               content := s.content ++ [.text text],
               events := s.events ++ [.text_start idx, .text_delta idx text] }
  | some i =>
      { s with content := updateTextBlock s.content i text,
               events := s.events ++ [.text_delta i text] }

/-- `emitThinking` (thinking-parser.ts 148–162), symmetric to `emitText`. -/
def emitThinking (s : TPState) (thinking : List Char) : TPState :=
  match s.thinkingBlockIndex with
  | none =>
      let idx := s.content.length
      { s with thinkingBlockIndex := some idx,
               content := s.content ++ [.thinking thinking],
               events := s.events ++ [.thinking_start idx, .thinking_delta idx thinking] }
  | some i =>
      { s with content := updateThinkingBlock s.content i thinking,
               events := s.events ++ [.thinking_delta i thinking] }

/-- `String.prototype.indexOf(pat)`: position of the earliest occurrence of
`pat` in `s`. -/
def firstMatchPos (pat : List Char) : List Char → Option Nat
  | [] => if pat.isPrefixOf [] then some 0 else none
  | c :: rest =>
      if pat.isPrefixOf (c :: rest) then some 0
      else (firstMatchPos pat rest).map (· + 1)

/-- The variant scan of `processBeforeThinking` (81–91): try each tag
variant in order, keep the strictly earliest match. -/
def bestOpenMatch (buf : List Char) : Option (Nat × (List Char × List Char)) :=
  THINKING_TAG_VARIANTS.foldl
    (fun acc v =>
      match firstMatchPos v.1 buf with
      | none => acc
      | some p =>
          match acc with
          | none => some (p, v)
          | some (bp, bv) => if p < bp then some (p, v) else some (bp, bv))
    none

/-- `processBeforeThinking` (thinking-parser.ts 81–104). -/
def processBeforeThinking (s : TPState) : TPState :=
  match bestOpenMatch s.textBuffer with
  | some (bestPos, v) =>
      let s1 := if bestPos > 0 then emitText s (s.textBuffer.take bestPos) else s
      { s1 with textBuffer := s.textBuffer.drop (bestPos + v.1.length),
                activeEndTag := v.2, inThinking := true }
  | none =>
      let safeLen := s.textBuffer.length - MAX_OPEN_TAG_LEN
      if safeLen > 0 then
        { emitText s (s.textBuffer.take safeLen) with
            textBuffer := s.textBuffer.drop safeLen }
      else s

/-- `processInsideThinking` (thinking-parser.ts 106–130). -/
def processInsideThinking (s : TPState) : TPState :=
  match firstMatchPos s.activeEndTag s.textBuffer with
  | some endPos =>
      let s1 := if endPos > 0 then emitThinking s (s.textBuffer.take endPos) else s
      let s2 :=
        match s1.thinkingBlockIndex with
        | some i =>
            { s1 with events :=
                s1.events ++ [TPEvent.thinking_end i (blockThinkingAt s1.content i)] }
        | none => s1
      let buf := s.textBuffer.drop (endPos + s.activeEndTag.length)
      let buf := if ("\n\n".toList).isPrefixOf buf then buf.drop 2 else buf
      { s2 with textBuffer := buf, inThinking := false, thinkingExtracted := true }
  | none =>
      let safeLen := s.textBuffer.length - MAX_CLOSE_TAG_LEN
      if safeLen > 0 then
        { emitThinking s (s.textBuffer.take safeLen) with
            textBuffer := s.textBuffer.drop safeLen }
      else s

/-- `processAfterThinking` (thinking-parser.ts 132–135). -/
def processAfterThinking (s : TPState) : TPState :=
  { emitText s s.textBuffer with textBuffer := [] }

/-- `if (!this.inThinking && !this.thinkingExtracted) processBeforeThinking()`
as a state transformer (loop body step 1). -/
def tpPhase1 (s : TPState) : TPState :=
  if !s.inThinking && !s.thinkingExtracted then processBeforeThinking s else s

/-- `if (this.inThinking) processInsideThinking()` as a state transformer
(loop body step 2, on the state step 1 left). -/
def tpPhase2 (s1 : TPState) : TPState :=
  if s1.inThinking then processInsideThinking s1 else s1

/-- The `while` loop of `processChunk` (thinking-parser.ts 36–51).  The two
`if (...) { phase(); if (empty) break; }` steps are encoded with the branch
condition repeated in the break test; when the condition is false the state
is unchanged and the buffer is the (non-empty) loop-entry buffer, so the
combined test is equivalent to the source's inner break.  The final guard is
the source's `if (this.textBuffer.length >= prevLength) break`, written as
its negation selecting the recursive call. -/
def processLoop (s : TPState) : TPState :=
  if s.textBuffer.isEmpty then s
  else if (!s.inThinking && !s.thinkingExtracted) && (tpPhase1 s).textBuffer.isEmpty then
    tpPhase1 s
  else if (tpPhase1 s).inThinking && (tpPhase2 (tpPhase1 s)).textBuffer.isEmpty then
    tpPhase2 (tpPhase1 s)
  else if (tpPhase2 (tpPhase1 s)).thinkingExtracted then
    processAfterThinking (tpPhase2 (tpPhase1 s))
  else if h : (tpPhase2 (tpPhase1 s)).textBuffer.length < s.textBuffer.length then
    processLoop (tpPhase2 (tpPhase1 s))
  else tpPhase2 (tpPhase1 s)
termination_by s.textBuffer.length
decreasing_by exact h

/-- `processChunk` (thinking-parser.ts 34–52): append the chunk, run the
loop. -/
def processChunk (s : TPState) (chunk : List Char) : TPState :=
  processLoop { s with textBuffer := s.textBuffer ++ chunk }

/-- `finalize` (thinking-parser.ts 54–75): flush a non-empty buffer into the
thinking block — with its `thinking_end` boundary — only when `inThinking`
*and* a thinking block index exists; otherwise flush it as answer text. -/
def finalize (s : TPState) : TPState :=
  if s.textBuffer.isEmpty then s
  else
    let s' :=
      if s.inThinking then
        match s.thinkingBlockIndex with
        | some i =>
            let newContent := updateThinkingBlock s.content i s.textBuffer
            { s with content := newContent,
                     events := s.events ++ [.thinking_delta i s.textBuffer,
                       .thinking_end i (blockThinkingAt newContent i)] }
        | none => emitText s s.textBuffer
      else emitText s s.textBuffer
    { s' with textBuffer := [] }

/-- Concatenation of the `text_delta` payloads of an event list: what it
emitted as answer text. -/
def textDeltasOf : List TPEvent → List Char
  | [] => []
  | .text_delta _ d :: rest => d ++ textDeltasOf rest
  | _ :: rest => textDeltasOf rest

/-- Concatenation of the `thinking_delta` payloads of an event list. -/
def thinkingDeltasOf : List TPEvent → List Char
  | [] => []
  | .thinking_delta _ d :: rest => d ++ thinkingDeltasOf rest
  | _ :: rest => thinkingDeltasOf rest

/-- Does the event list carry a thinking-closed boundary? -/
def hasThinkingEnd : List TPEvent → Bool
  | [] => false
  | .thinking_end _ _ :: _ => true
  | _ :: rest => hasThinkingEnd rest

/-! ## `src/event-parser.ts` — brace balancing and the frame scanner -/

/-- `findJsonEnd`'s loop (event-parser.ts 13–40) over the suffix that starts
at `start`, returning the offset of the closing brace: a brace-depth counter
that tracks string-quote state and backslash-escape state; braces inside
quoted strings are ignored; reaching depth zero at a `}` ends the fragment.
-/
def findJsonEndGo : List Char → Int → Bool → Bool → Option Nat
  | [], _, _, _ => none
  | c :: rest, braceCount, inString, escapeNext =>
    if escapeNext then (findJsonEndGo rest braceCount inString false).map (· + 1)
    else if c = '\\' then (findJsonEndGo rest braceCount inString true).map (· + 1)
    else if c = '"' then (findJsonEndGo rest braceCount (!inString) escapeNext).map (· + 1)
    else if !inString then
      if c = '{' then (findJsonEndGo rest (braceCount + 1) inString escapeNext).map (· + 1)
      else if c = '}' then
        if braceCount - 1 = 0 then some 0
        else (findJsonEndGo rest (braceCount - 1) inString escapeNext).map (· + 1)
      else (findJsonEndGo rest braceCount inString escapeNext).map (· + 1)
    else (findJsonEndGo rest braceCount inString escapeNext).map (· + 1)

/-- `findJsonEnd(text, start)`: absolute index of the balanced closing brace
from `start`, `none` for the source's `-1`. -/
def findJsonEnd (cs : List Char) (start : Nat) : Option Nat :=
  (findJsonEndGo (cs.drop start) 0 false false).map (start + ·)

/-- `EVENT_PATTERNS` (event-parser.ts 87–97): the anchor key prefixes. -/
def EVENT_PATTERNS : List (List Char) :=
  ["\x7b\"content\":".toList,
   "\x7b\"name\":".toList,
   "\x7b\"input\":".toList,
   "\x7b\"stop\":".toList,
   "\x7b\"contextUsagePercentage\":".toList,
   "\x7b\"followupPrompt\":".toList,
   "\x7b\"usage\":".toList,
   "\x7b\"toolUseId\":".toList,
   "\x7b\"unit\":".toList]

/-- Does some anchor pattern start at the head of this suffix? -/
def matchesAnchor (s : List Char) : Bool :=
  EVENT_PATTERNS.any (fun p => p.isPrefixOf s)

/-- The offset of the earliest anchor match in a suffix.  `findNextEventStart`
in the source takes the minimum of `indexOf` over the patterns, which is the
earliest position at which some pattern matches. -/
def findNextEventStartOff : List Char → Option Nat
  | [] => none
  | c :: rest =>
      if matchesAnchor (c :: rest) then some 0
      else (findNextEventStartOff rest).map (· + 1)

/-- `findNextEventStart(buffer, from)` (event-parser.ts 99–106), absolute. -/
def findNextEventStart (cs : List Char) (pos : Nat) : Option Nat :=
  (findNextEventStartOff (cs.drop pos)).map (pos + ·)

/-- `buffer.substring(sp.1, sp.2 + 1)`: the text of one extracted fragment. -/
def extractFrag (cs : List Char) (sp : Nat × Nat) : List Char :=
  (cs.drop sp.1).take (sp.2 + 1 - sp.1)

/-- The fragment windows the scan loop of `parseKiroEvents` walks: the same
`while` loop (event-parser.ts 112–130) recording each complete fragment's
(anchor, end) index pair instead of its parsed event.  A truncated fragment
returns the suffix from its anchor as the preserved remainder. -/
def scanSpansGo (cs : List Char) (pos : Nat) : List (Nat × Nat) × List Char :=
  if h : pos < cs.length then
    match hf : findNextEventStart cs pos with
    | none => ([], [])
    | some jsonStart =>
        match he : findJsonEnd cs jsonStart with
        | none => ([], cs.drop jsonStart)
        | some jsonEnd =>
            let r := scanSpansGo cs (jsonEnd + 1)
            ((jsonStart, jsonEnd) :: r.1, r.2)
  else ([], [])
termination_by cs.length - pos
decreasing_by
  simp only [findNextEventStart, Option.map_eq_some'] at hf
  simp only [findJsonEnd, Option.map_eq_some'] at he
  obtain ⟨o, -, rfl⟩ := hf
  obtain ⟨r, -, rfl⟩ := he
  omega

def scanSpans (cs : List Char) : List (Nat × Nat) × List Char :=
  scanSpansGo cs 0

/-- The loop of `parseKiroEvents` (event-parser.ts 108–133) as the source
writes it, collecting events fragment by fragment.  `parseFrag` abstracts
`JSON.parse` composed with `parseKiroEvent` inside `try` (a fragment that
fails to parse or classify is skipped). -/
def parseKiroEventsGo {ε : Type} (parseFrag : List Char → Option ε) (cs : List Char)
    (pos : Nat) : List ε × List Char :=
  if h : pos < cs.length then
    match hf : findNextEventStart cs pos with
    | none => ([], [])
    | some jsonStart =>
        match he : findJsonEnd cs jsonStart with
        | none => ([], cs.drop jsonStart)
        | some jsonEnd =>
            let r := parseKiroEventsGo parseFrag cs (jsonEnd + 1)
            match parseFrag (extractFrag cs (jsonStart, jsonEnd)) with
            | some e => (e :: r.1, r.2)
            | none => r
  else ([], [])
termination_by cs.length - pos
decreasing_by
  simp only [findNextEventStart, Option.map_eq_some'] at hf
  simp only [findJsonEnd, Option.map_eq_some'] at he
  obtain ⟨o, -, rfl⟩ := hf
  obtain ⟨r, -, rfl⟩ := he
  omega

/-- `parseKiroEvents(buffer)`: events of every complete anchored fragment,
plus the unconsumed remainder. -/
def parseKiroEvents {ε : Type} (parseFrag : List Char → Option ε) (buffer : List Char) :
    List ε × List Char :=
  parseKiroEventsGo parseFrag buffer 0

/-! ## `src/bracket-tool-parser.ts` — the bracket fallback extractor

The regex `\[Called\s+([\w-]+)\s+with\s+args:\s*` is matched by maximal
munch, which coincides with JavaScript's greedy semantics here because the
whitespace class and the name class are disjoint and each literal part
starts with a non-whitespace, non-name character.  The generated
`crypto.randomUUID()` identifier is external entropy and is omitted from the
model; a recovered call is its name plus its parsed arguments. -/

/-- The regex class `[\w-]`. -/
def isWordOrDash (c : Char) : Bool :=
  c.isAlphanum || c = '_' || c = '-'

/-- Match the bracket anchor at the head of a suffix: on success, the
captured name and the number of characters the whole regex match consumed
(trailing `\s*` included). -/
def matchBracketAnchor (s : List Char) : Option (List Char × Nat) :=
  if "[Called".toList.isPrefixOf s then
    let s1 := s.drop 7
    let ws1 := s1.takeWhile isWS
    let s2 := s1.dropWhile isWS
    if ws1.isEmpty then none
    else
      let nm := s2.takeWhile isWordOrDash
      let s3 := s2.dropWhile isWordOrDash
      if nm.isEmpty then none
      else
        let ws2 := s3.takeWhile isWS
        let s4 := s3.dropWhile isWS
        if ws2.isEmpty then none
        else if "with".toList.isPrefixOf s4 then
          let s5 := s4.drop 4
          let ws3 := s5.takeWhile isWS
          let s6 := s5.dropWhile isWS
          if ws3.isEmpty then none
          else if "args:".toList.isPrefixOf s6 then
            let ws4 := (s6.drop 5).takeWhile isWS
            some (nm, 7 + ws1.length + nm.length + ws2.length + 4 + ws3.length + 5 +
              ws4.length)
          else none
        else none
  else none

/-- `BRACKET_PATTERN.exec` from a given offset: the earliest anchor match in
the suffix, as (offset, captured name, consumed length). -/
def findBracketMatchOff : List Char → Option (Nat × List Char × Nat)
  | [] => none
  | c :: rest =>
      match matchBracketAnchor (c :: rest) with
      | some (nm, consumed) => some (0, nm, consumed)
      | none => (findBracketMatchOff rest).map (fun r => (r.1 + 1, r.2.1, r.2.2))

/-- The offset of the earliest occurrence of one character in a suffix. -/
def findCharOff (c : Char) : List Char → Option Nat
  | [] => none
  | d :: rest => if d = c then some 0 else (findCharOff c rest).map (· + 1)

/-- `text.indexOf(c, pos)`, absolute; `none` for the source's `-1`. -/
def jsCharIndexOf (cs : List Char) (c : Char) (pos : Nat) : Option Nat :=
  (findCharOff c (cs.drop pos)).map (pos + ·)

/-- The acceptance checks of one regex match (bracket-tool-parser.ts 30–51):
the `{` must sit exactly at the position following the matched anchor, the
brace-balanced JSON text must parse, and only whitespace may separate the
closing `}` from the following `]`.  Returns the parsed arguments and the
removal end (one past the `]`), or `none` when the match is rejected. -/
def bracketAccept {α : Type} (parse : List Char → Option α) (cs : List Char)
    (jsonStart : Nat) : Option (α × Nat) :=
  match jsCharIndexOf cs '{' jsonStart with
  | some braceIdx =>
      if braceIdx = jsonStart then
        match findJsonEnd cs braceIdx with
        | some jsonEndIdx =>
            match jsCharIndexOf cs ']' (jsonEndIdx + 1) with
            | some afterJson =>
                if jsTrim ((cs.drop (jsonEndIdx + 1)).take (afterJson - (jsonEndIdx + 1)))
                    = [] then
                  match parse ((cs.drop braceIdx).take (jsonEndIdx + 1 - braceIdx)) with
                  | some args => some (args, afterJson + 1)
                  | none => none
                else none
            | none => none
        | none => none
      else none
  | none => none

/-- The `exec` loop of `parseBracketToolCalls` (19–55): find the next anchor
match, attempt acceptance, and continue from the regex's `lastIndex` (the
end of the anchor match) whether or not the match was accepted.  The
termination guard is always true — an anchor match lies inside the buffer
and consumes at least the literal `[Called` — and exists only to bound the
recursion. -/
def bracketScanGo {α : Type} (parse : List Char → Option α) (cs : List Char) (pos : Nat) :
    List (List Char × α) × List (Nat × Nat) :=
  match findBracketMatchOff (cs.drop pos) with
  | none => ([], [])
  | some (o, nm, consumed) =>
      let rest :=
        if h : pos < cs.length ∧ pos < pos + o + consumed then
          bracketScanGo parse cs (pos + o + consumed)
        else ([], [])
      match bracketAccept parse cs (pos + o + consumed) with
      | some ar => ((nm, ar.1) :: rest.1, (pos + o, ar.2) :: rest.2)
      | none => rest
termination_by cs.length - pos
decreasing_by omega

/-- Removal application (57–62): splice out the recorded spans back-to-front
by original offset. -/
def applyRemovals (text : List Char) (removals : List (Nat × Nat)) : List Char :=
  removals.reverse.foldl (fun acc r => acc.take r.1 ++ acc.drop r.2) text

/-- `parseBracketToolCalls(text)`: the recovered calls (name, arguments) and
the cleaned text. -/
def parseBracketToolCalls {α : Type} (parse : List Char → Option α) (text : List Char) :
    List (List Char × α) × List Char :=
  (( bracketScanGo parse text 0).1, applyRemovals text (bracketScanGo parse text 0).2)

/-- The spec-side acceptance predicate for one recovered call: some anchor
match whose following character is exactly `{`, whose balanced JSON text
parses to the call's arguments, and whose closing brace is separated from
the following `]` by whitespace only. -/
def BracketAccepted {α : Type} (parse : List Char → Option α) (text : List Char)
    (tc : List Char × α) : Prop :=
  ∃ start consumed e aft,
    matchBracketAnchor (text.drop start) = some (tc.1, consumed) ∧
    jsCharIndexOf text '{' (start + consumed) = some (start + consumed) ∧
    findJsonEnd text (start + consumed) = some e ∧
    jsCharIndexOf text ']' (e + 1) = some aft ∧
    jsTrim ((text.drop (e + 1)).take (aft - (e + 1))) = [] ∧
    parse ((text.drop (start + consumed)).take (e + 1 - (start + consumed))) = some tc.2

/-! # Theorems -/

/-! ## C6 — `decideRetry` matches the decision table -/

/-- **C6.** `decideRetry` is a total pure function matching the claim's
decision table at every status, error text and attempt index: the
`attempt ≥ maxAttempts` boundary gives no retry; 413 (or 400 with a size
phrase) gives `reduce` with delay 0; 429 and 5xx give `backoff` with delay
`min (1000 * 2 ^ attempt) 30000`; 403 gives `backoff` with delay
`min (500 * 2 ^ attempt) 30000`; anything else gives no retry. -/
theorem decideRetry_matches_table (status : Nat) (errorText : List Char)
    (attempt maxAttempts : Nat) :
    decideRetry status errorText attempt maxAttempts =
      decideRetrySpec status errorText attempt maxAttempts := by
  unfold decideRetry decideRetrySpec exponentialBackoff
  by_cases h1 : attempt ≥ maxAttempts
  · simp [h1]
  · by_cases h2 : status = 413
    · simp [h1, h2]
    · by_cases h3 : status = 400 ∧ (TOO_BIG_PATTERNS.any (jsIncludes errorText ·)) = true
      · simp [h1, h2, h3]
      · simp [h1, h2, h3]

/-! ## C7 — content deduplication -/

theorem processContents_deltas_general (ds : List (List Char)) (st : ContentFoldState) :
    (processContents st ds).deltas = st.deltas ++ dedupFromPred st.lastContentData ds := by
  induction ds generalizing st with
  | nil => simp [processContents, dedupFromPred]
  | cons d rest ih =>
      have step : processContents st (d :: rest) =
          processContents (processContentEvent st d) rest := rfl
      rw [step]
      by_cases h : d = st.lastContentData
      · rw [show processContentEvent st d = st from by simp [processContentEvent, h]]
        rw [ih st]
        simp [dedupFromPred, h]
      · have hd : (processContentEvent st d).deltas = st.deltas ++ [d] := by
          unfold processContentEvent
          rw [if_neg h]
          cases hidx : st.textBlockIndex <;> simp [hidx]
        have hl : (processContentEvent st d).lastContentData = d := by
          unfold processContentEvent
          rw [if_neg h]
          cases hidx : st.textBlockIndex <;> simp [hidx]
        rw [ih (processContentEvent st d), hd, hl]
        simp [dedupFromPred, h, List.append_assoc]

/-- **C7 (counterexample).** The claim as stated predicts that the first
fragment, having no preceding fragment, is always emitted; the code drops a
*leading empty* fragment because the comparison value starts as `""`:
on the one-fragment input `[""]` the code yields no delta while the claim
yields `[""]`. -/
theorem contentDedup_claim_counterexample :
    (processContents initContentState [([] : List Char)]).deltas = [] ∧
      dedupClaimC7 [([] : List Char)] = [[]] ∧
      ([] : List (List Char)) ≠ [[]] := by
  refine ⟨rfl, rfl, by simp⟩

/-- **C7 (amended).** With the predecessor of the first fragment taken to be
the empty string (the initialisation of `lastContentData`), a `Content`
fragment byte-identical to its predecessor is dropped and every other
fragment is emitted verbatim in order; in particular
`["Hello", "Hello", " world"]` yields deltas `["Hello", " world"]` and
`["A", "B", "A"]` yields `["A", "B", "A"]`. -/
theorem contentDedup_amended (ds : List (List Char)) :
    (processContents initContentState ds).deltas = dedupFromPred [] ds ∧
      (processContents initContentState
          ["Hello".toList, "Hello".toList, " world".toList]).deltas =
        ["Hello".toList, " world".toList] ∧
      (processContents initContentState ["A".toList, "B".toList, "A".toList]).deltas =
        ["A".toList, "B".toList, "A".toList] := by
  refine ⟨?_, by decide, by decide⟩
  simpa [initContentState] using processContents_deltas_general ds initContentState

/-! ## C10 — a leading empty content fragment is inert -/

/-- **C10.** The comparison value `lastContentData` is initialised to the
empty string, so a first `Content` fragment carrying `""` is dropped by the
deduplication step: the whole fold state — text-slot allocation, emitted
deltas, and the token-counted `totalContent` — is exactly as if the event
had never arrived. -/
theorem leadingEmptyContent_inert (ds : List (List Char)) :
    processContents initContentState ([] :: ds) = processContents initContentState ds ∧
      (processContents initContentState [([] : List Char)]).textBlockIndex = none ∧
      (processContents initContentState [([] : List Char)]).deltas = [] ∧
      (processContents initContentState [([] : List Char)]).totalContent = [] := by
  exact ⟨rfl, rfl, rfl, rfl⟩

/-! ## C1 — stop reason at finalize -/

/-- **C1 (counterexample).** One assembled tool call whose accumulated input
is empty: the finalize filter drops it (no call survives), yet the code
computes stop reason `toolUse` because it tests the unfiltered list, while
the claim — `toolUse` only if a call survived filtering, here with a
context-usage event observed — predicts `stop`. -/
theorem stopReason_claim_counterexample :
    (survivingToolCalls (fun _ => some ()) [⟨"tc1".toList, "write".toList, []⟩]).isEmpty
        = true ∧
      finalStopReason true [⟨"tc1".toList, "write".toList, []⟩] = .toolUse ∧
      claimStopReasonC1 (fun _ => some ()) true [⟨"tc1".toList, "write".toList, []⟩]
        = .stop ∧
      StopReasonK.toolUse ≠ StopReasonK.stop := by
  refine ⟨rfl, rfl, rfl, by decide⟩

/-- **C1 (amended).** At finalize of a completed attempt the stop reason
follows the claim's rule with "survived the input filtering" read as "was
assembled": `toolUse` if any tool call was assembled (counted before the
empty-input / parse-failure filtering), else `length` if no context-usage
event was observed during the attempt, else `stop` — together with the
claim's two end-to-end cases (no context usage and no calls gives `length`;
one completed call gives `toolUse` regardless of context usage). -/
theorem stopReason_amended (receivedContextUsage : Bool)
    (toolCalls : List KiroToolCallState) :
    finalStopReason receivedContextUsage toolCalls =
        claimStopReasonC1Amended receivedContextUsage toolCalls ∧
      (finalStopReason false [] = .length) ∧
      (finalStopReason true [⟨"tc1".toList, "b".toList, "{}".toList⟩] = .toolUse ∧
        finalStopReason false [⟨"tc1".toList, "b".toList, "{}".toList⟩] = .toolUse) := by
  refine ⟨?_, rfl, rfl, rfl⟩
  unfold finalStopReason claimStopReasonC1Amended
  cases toolCalls <;> cases receivedContextUsage <;> simp

/-! ## C9 — retry budget under constant 429 -/

theorem streamRetryLoop_429_aux (errF : Nat → List Char) (maxRetries : Nat) :
    ∀ k retryCount, maxRetries + 1 - retryCount = k → retryCount ≤ maxRetries →
      streamRetryLoop (fun i => .httpError 429 (errF i)) false maxRetries retryCount =
        (maxRetries + 1 - retryCount, .errorEvent .error) := by
  intro k
  induction k with
  | zero => intro rc h1 h2; omega
  | succ k ih =>
      intro rc h1 h2
      rw [streamRetryLoop]
      rw [dif_pos h2]
      by_cases hlt : rc < maxRetries
      · have hr : (decideRetry 429 (errF rc) rc maxRetries).shouldRetry = true := by
          unfold decideRetry
          simp [Nat.not_le.mpr hlt]
        simp only [hr, if_pos]
        rw [ih (rc + 1) (by omega) (by omega)]
        simp only []
        congr 1
        omega
      · have hrc : rc = maxRetries := by omega
        have hr : (decideRetry 429 (errF rc) rc maxRetries).shouldRetry = false := by
          unfold decideRetry
          simp [hrc]
        simp only [hr, Bool.false_eq_true, if_false]
        rw [hrc]
        simp

/-- **C9.** When every HTTP response has status 429 (always retryable until
the budget is exhausted), the stream orchestrator issues exactly
`maxRetries + 1` request attempts — 4 with the default budget of 3 retries —
and then terminates exactly once, with a terminal error event whose stop
reason is `error` (the external signal not having fired). -/
theorem retryBudget_429 (maxRetries : Nat) (errF : Nat → List Char) :
    streamRetryLoop (fun i => .httpError 429 (errF i)) false maxRetries 0 =
        (maxRetries + 1, .errorEvent .error) ∧
      streamRetryLoop (fun i => .httpError 429 (errF i)) false 3 0 =
        (4, .errorEvent .error) := by
  constructor
  · simpa using streamRetryLoop_429_aux errF maxRetries (maxRetries + 1) 0 rfl (by omega)
  · simpa using streamRetryLoop_429_aux errF 3 4 0 rfl (by omega)

/-! ## C2 — event classifier precedence -/

theorem classifier_matches_amended_table (stringify : JsonV → List Char) (o : KiroObj) :
    parseKiroEvent stringify o = firstMatching (specTableAmended stringify) o := by
  unfold parseKiroEvent specTableAmended
  cases hc : jsField o kContent with
  | some v => simp [firstMatching, hc]
  | none =>
      by_cases h2 : (optTruthy (jsField o kName) &&
          optTruthy (jsField o kToolUseId)) = true
      · simp [firstMatching, hc, h2]
      · by_cases h3 : ((jsField o kInput).isSome &&
            !optTruthy (jsField o kName)) = true
        · simp [firstMatching, hc, h2, h3]
        · by_cases h4 : ((jsField o kStop).isSome &&
              (jsField o kCtxUsage).isNone) = true
          · simp [firstMatching, hc, h2, h3, h4]
          · by_cases h5 : (jsField o kCtxUsage).isSome = true
            · simp [firstMatching, hc, h2, h3, h4, h5]
            · by_cases h6 : (jsField o kFollowup).isSome = true
              · simp [firstMatching, hc, h2, h3, h4, h5, h6]
              · cases hu : jsField o kUsage with
                | none => simp [firstMatching, hc, h2, h3, h4, h5, h6, hu]
                | some v => cases v <;> simp [firstMatching, hc, h2, h3, h4, h5, h6, hu]

/-- **C2 (counterexample).** Three objects on which the code departs from
the table as written.  `{name: "", toolUseId: "t", input: "x"}`: rule 2 as
written (both fields *present*) makes it a `ToolUse`, but the code tests
truthiness, the empty-string `name` is falsy, and rule 3's code condition
`input !== undefined && !parsed.name` fires instead (`ToolUseInput`).
`{name: "x", toolUseId: "", input: "y"}`: rule 2 as written again says
`ToolUse`, but the falsy `toolUseId` fails rule 2 in code and the truthy
`name` also blocks rule 3, so the code classifies it as nothing.
`{usage: null}`: rule 7 as written says `Usage`, but the code's property
access on `null` throws and the caller's `catch` drops the fragment. -/
theorem classifier_claim_counterexample :
    (parseKiroEvent (fun _ => [])
          [(kName, .str []), (kToolUseId, .str "t".toList), (kInput, .str "x".toList)] =
        some (.toolUseInput "x".toList) ∧
      firstMatching (specTableAsWritten (fun _ => []))
          [(kName, .str []), (kToolUseId, .str "t".toList), (kInput, .str "x".toList)] =
        some (.toolUse (.str []) (.str "t".toList) "x".toList none) ∧
      some (KiroEventT.toolUseInput "x".toList) ≠
        some (.toolUse (.str []) (.str "t".toList) "x".toList none)) ∧
    (parseKiroEvent (fun _ => [])
          [(kName, .str "x".toList), (kToolUseId, .str []), (kInput, .str "y".toList)] =
        none ∧
      firstMatching (specTableAsWritten (fun _ => []))
          [(kName, .str "x".toList), (kToolUseId, .str []), (kInput, .str "y".toList)] =
        some (.toolUse (.str "x".toList) (.str []) "y".toList none) ∧
      (none : Option KiroEventT) ≠
        some (.toolUse (.str "x".toList) (.str []) "y".toList none)) ∧
    (parseKiroEvent (fun _ => []) [(kUsage, JsonV.null)] = none ∧
      firstMatching (specTableAsWritten (fun _ => [])) [(kUsage, JsonV.null)] =
        some (.usage none none) ∧
      (none : Option KiroEventT) ≠ some (.usage none none)) := by
  refine ⟨⟨rfl, rfl, by simp⟩, ⟨rfl, rfl, by simp⟩, ⟨rfl, rfl, by simp⟩⟩

/-- **C2 (amended).** For every JSON object, classification follows the
first-match precedence table with rules 2 and 3 testing `name` and
`toolUseId` for JS *truthiness* rather than mere presence, and rule 7
dropping an object whose `usage` value is `null`; in particular an object
with `name`, `toolUseId` and an empty-object `input` classifies as `ToolUse`
with input equal to the empty string (not the text `"{}"`), and an object
carrying both `toolUseId` and `stop` but no `name` classifies as
`ToolUseStop`, not `ToolUse`. -/
theorem classifier_precedence (stringify : JsonV → List Char) (o : KiroObj) :
    parseKiroEvent stringify o = firstMatching (specTableAmended stringify) o ∧
      parseKiroEvent stringify
          [(kName, .str "write".toList), (kToolUseId, .str "tc1".toList),
           (kInput, .obj [])] =
        some (.toolUse (.str "write".toList) (.str "tc1".toList) [] none) ∧
      parseKiroEvent stringify
          [(kToolUseId, .str "tc1".toList), (kStop, .bool true)] =
        some (.toolUseStop (.bool true)) := by
  exact ⟨classifier_matches_amended_table stringify o, rfl, rfl⟩

/-! ## C4 — hold-back lengths of the segmenter phases -/

theorem emitText_tail (s : TPState) (text : List Char) :
    ∃ tail, (emitText s text).events = s.events ++ tail ∧
      textDeltasOf tail = text ∧ thinkingDeltasOf tail = [] ∧
      hasThinkingEnd tail = false ∧ (emitText s text).textBuffer = s.textBuffer := by
  cases h : s.textBlockIndex with
  | none =>
      refine ⟨[.text_start s.content.length, .text_delta s.content.length text], ?_⟩
      simp [emitText, h, textDeltasOf, thinkingDeltasOf, hasThinkingEnd]
  | some i =>
      refine ⟨[.text_delta i text], ?_⟩
      simp [emitText, h, textDeltasOf, thinkingDeltasOf, hasThinkingEnd]

theorem emitThinking_tail (s : TPState) (text : List Char) :
    ∃ tail, (emitThinking s text).events = s.events ++ tail ∧
      thinkingDeltasOf tail = text ∧ textDeltasOf tail = [] ∧
      hasThinkingEnd tail = false ∧ (emitThinking s text).textBuffer = s.textBuffer := by
  cases h : s.thinkingBlockIndex with
  | none =>
      refine ⟨[.thinking_start s.content.length, .thinking_delta s.content.length text], ?_⟩
      simp [emitThinking, h, textDeltasOf, thinkingDeltasOf, hasThinkingEnd]
  | some i =>
      refine ⟨[.thinking_delta i text], ?_⟩
      simp [emitThinking, h, textDeltasOf, thinkingDeltasOf, hasThinkingEnd]

/-- **C4 (counterexample).** The longest open tag is `<reasoning>` (11
characters) and the longest close tag `</reasoning>` (12).  On a 12-character
buffer with no open-tag match the BeforeThinking phase holds back 11
characters, not the 10 the claim's "longest open tag length − 1" states; on
a 13-character buffer with no close-tag match the InsideThinking phase holds
back 12 characters, not 11. -/
theorem thinking_holdback_counterexample :
    MAX_OPEN_TAG_LEN = 11 ∧ MAX_CLOSE_TAG_LEN = 12 ∧
      bestOpenMatch "abcdefghijkl".toList = none ∧
      (processBeforeThinking
          ⟨"abcdefghijkl".toList, false, false, none, none, THINKING_END_TAG, [],
            []⟩).textBuffer.length = 11 ∧
      (11 : Nat) ≠ MAX_OPEN_TAG_LEN - 1 ∧
      firstMatchPos THINKING_END_TAG "abcdefghijklm".toList = none ∧
      (processInsideThinking
          ⟨"abcdefghijklm".toList, true, false, none, none, THINKING_END_TAG, [],
            []⟩).textBuffer.length = 12 ∧
      (12 : Nat) ≠ MAX_CLOSE_TAG_LEN - 1 := by
  refine ⟨by decide, by decide, by decide, by decide, by decide, by decide, by decide,
    by decide⟩

/-- **C4 (amended).** In the BeforeThinking phase with no open-tag match, all
buffered text is emitted as answer text except a held-back suffix of exactly
`MAX_OPEN_TAG_LEN` characters — the *full* longest open-tag length, not that
length minus one — (the whole buffer is held when it is no longer than
that); symmetrically, in InsideThinking with no close-tag match, all but a
held-back suffix of exactly `MAX_CLOSE_TAG_LEN` characters is emitted as
thinking content. -/
theorem thinking_holdback (s : TPState) :
    (bestOpenMatch s.textBuffer = none →
      (processBeforeThinking s).textBuffer =
          s.textBuffer.drop (s.textBuffer.length - MAX_OPEN_TAG_LEN) ∧
      (processBeforeThinking s).textBuffer.length =
          min s.textBuffer.length MAX_OPEN_TAG_LEN ∧
      ∃ tail, (processBeforeThinking s).events = s.events ++ tail ∧
        textDeltasOf tail = s.textBuffer.take (s.textBuffer.length - MAX_OPEN_TAG_LEN) ∧
        thinkingDeltasOf tail = [] ∧ hasThinkingEnd tail = false) ∧
    (firstMatchPos s.activeEndTag s.textBuffer = none →
      (processInsideThinking s).textBuffer =
          s.textBuffer.drop (s.textBuffer.length - MAX_CLOSE_TAG_LEN) ∧
      (processInsideThinking s).textBuffer.length =
          min s.textBuffer.length MAX_CLOSE_TAG_LEN ∧
      ∃ tail, (processInsideThinking s).events = s.events ++ tail ∧
        thinkingDeltasOf tail = s.textBuffer.take (s.textBuffer.length - MAX_CLOSE_TAG_LEN) ∧
        textDeltasOf tail = [] ∧ hasThinkingEnd tail = false) := by
  constructor
  · intro hmatch
    have hPB : processBeforeThinking s =
        if s.textBuffer.length - MAX_OPEN_TAG_LEN > 0 then
          { emitText s (s.textBuffer.take (s.textBuffer.length - MAX_OPEN_TAG_LEN)) with
              textBuffer := s.textBuffer.drop (s.textBuffer.length - MAX_OPEN_TAG_LEN) }
        else s := by
      unfold processBeforeThinking
      rw [hmatch]
    by_cases hs : s.textBuffer.length - MAX_OPEN_TAG_LEN > 0
    · rw [hPB, if_pos hs]
      obtain ⟨tail, he, ht, hth, hend, _⟩ :=
        emitText_tail s (s.textBuffer.take (s.textBuffer.length - MAX_OPEN_TAG_LEN))
      refine ⟨rfl, ?_, tail, by simpa using he, ht, hth, hend⟩
      simp only [List.length_drop]
      omega
    · rw [hPB, if_neg hs]
      have h0 : s.textBuffer.length - MAX_OPEN_TAG_LEN = 0 := by omega
      refine ⟨by simp [h0], ?_, [], by simp, by simp [h0, textDeltasOf],
        by simp [thinkingDeltasOf], by simp [hasThinkingEnd]⟩
      omega
  · intro hmatch
    have hPI : processInsideThinking s =
        if s.textBuffer.length - MAX_CLOSE_TAG_LEN > 0 then
          { emitThinking s (s.textBuffer.take (s.textBuffer.length - MAX_CLOSE_TAG_LEN)) with
              textBuffer := s.textBuffer.drop (s.textBuffer.length - MAX_CLOSE_TAG_LEN) }
        else s := by
      unfold processInsideThinking
      rw [hmatch]
    by_cases hs : s.textBuffer.length - MAX_CLOSE_TAG_LEN > 0
    · rw [hPI, if_pos hs]
      obtain ⟨tail, he, ht, hth, hend, _⟩ :=
        emitThinking_tail s (s.textBuffer.take (s.textBuffer.length - MAX_CLOSE_TAG_LEN))
      refine ⟨rfl, ?_, tail, by simpa using he, ht, hth, hend⟩
      simp only [List.length_drop]
      omega
    · rw [hPI, if_neg hs]
      have h0 : s.textBuffer.length - MAX_CLOSE_TAG_LEN = 0 := by omega
      refine ⟨by simp [h0], ?_, [], by simp, by simp [h0, thinkingDeltasOf],
        by simp [textDeltasOf], by simp [hasThinkingEnd]⟩
      omega

/-! ## C5 — finalize flush behaviour -/

/-- **C5 (amended).** At end of input, a non-empty buffer is flushed as
thinking content — with its `thinking_end` boundary emitted despite the
missing close tag — *only when* the segmenter is InsideThinking **and** a
thinking slot was already opened (`thinkingBlockIndex` set); when it is
InsideThinking but no thinking content was emitted yet (no slot), or in any
other phase, the buffered text is flushed as answer text with no thinking
boundary. -/
theorem finalize_flush (s : TPState) :
    (∀ i, s.inThinking = true → s.thinkingBlockIndex = some i → s.textBuffer ≠ [] →
      (finalize s).events = s.events ++ [.thinking_delta i s.textBuffer,
        .thinking_end i (blockThinkingAt (updateThinkingBlock s.content i s.textBuffer) i)] ∧
      (finalize s).content = updateThinkingBlock s.content i s.textBuffer ∧
      (finalize s).textBuffer = []) ∧
    (s.inThinking = false → s.textBuffer ≠ [] →
      ∃ tail, (finalize s).events = s.events ++ tail ∧
        textDeltasOf tail = s.textBuffer ∧ hasThinkingEnd tail = false ∧
        (finalize s).textBuffer = []) ∧
    (s.inThinking = true → s.thinkingBlockIndex = none → s.textBuffer ≠ [] →
      ∃ tail, (finalize s).events = s.events ++ tail ∧
        textDeltasOf tail = s.textBuffer ∧ hasThinkingEnd tail = false ∧
        (finalize s).textBuffer = []) := by
  refine ⟨?_, ?_, ?_⟩
  · intro i hin hti hbuf
    have hne : s.textBuffer.isEmpty = false := by
      simpa using hbuf
    refine ⟨?_, ?_, ?_⟩ <;> simp [finalize, hne, hin, hti]
  · intro hin hbuf
    have hne : s.textBuffer.isEmpty = false := by
      simpa using hbuf
    obtain ⟨tail, he, ht, hth, hend, _⟩ := emitText_tail s s.textBuffer
    refine ⟨tail, ?_, ht, hend, ?_⟩ <;> simp [finalize, hne, hin, he]
  · intro hin hti hbuf
    have hne : s.textBuffer.isEmpty = false := by
      simpa using hbuf
    obtain ⟨tail, he, ht, hth, hend, _⟩ := emitText_tail s s.textBuffer
    refine ⟨tail, ?_, ht, hend, ?_⟩ <;> simp [finalize, hne, hin, hti, he]

/-- **C5 (counterexample).** The input sequence consisting of the single
chunk `"<thinking>hi"` ends with the segmenter InsideThinking and buffered
text `"hi"`, but no thinking slot was ever opened (the buffer never exceeded
the close-tag hold-back), so `finalize` flushes `"hi"` as *answer text*: the
emitted events are `text_start`/`text_delta` and no thinking-closed boundary
is ever emitted, contradicting the claimed thinking flush. -/
theorem finalize_truncated_counterexample :
    (processChunk initTPState
        ['<', 't', 'h', 'i', 'n', 'k', 'i', 'n', 'g', '>', 'h', 'i']).inThinking = true ∧
      (processChunk initTPState
          ['<', 't', 'h', 'i', 'n', 'k', 'i', 'n', 'g', '>', 'h', 'i']).textBuffer =
        ['h', 'i'] ∧
      (processChunk initTPState
          ['<', 't', 'h', 'i', 'n', 'k', 'i', 'n', 'g', '>', 'h', 'i']).thinkingBlockIndex =
        none ∧
      (finalize (processChunk initTPState
          ['<', 't', 'h', 'i', 'n', 'k', 'i', 'n', 'g', '>', 'h', 'i'])).events =
        [.text_start 0, .text_delta 0 ['h', 'i']] ∧
      (finalize (processChunk initTPState
          ['<', 't', 'h', 'i', 'n', 'k', 'i', 'n', 'g', '>', 'h', 'i'])).content =
        [.text ['h', 'i']] ∧
      hasThinkingEnd [TPEvent.text_start 0, .text_delta 0 ['h', 'i']] = false := by
  have e0 : processChunk initTPState
      ['<', 't', 'h', 'i', 'n', 'k', 'i', 'n', 'g', '>', 'h', 'i'] =
      processLoop ⟨['<', 't', 'h', 'i', 'n', 'k', 'i', 'n', 'g', '>', 'h', 'i'],
        false, false, none, none,
        ['<', '/', 't', 'h', 'i', 'n', 'k', 'i', 'n', 'g', '>'], [], []⟩ := rfl
  have e1 : processChunk initTPState
      ['<', 't', 'h', 'i', 'n', 'k', 'i', 'n', 'g', '>', 'h', 'i'] =
      ⟨['h', 'i'], true, false, none, none,
        ['<', '/', 't', 'h', 'i', 'n', 'k', 'i', 'n', 'g', '>'], [], []⟩ := by
    rw [e0, processLoop]
    simp +decide [tpPhase1, tpPhase2, processBeforeThinking, processInsideThinking,
      bestOpenMatch, firstMatchPos, THINKING_TAG_VARIANTS, emitText, emitThinking,
      updateTextBlock, updateThinkingBlock, blockThinkingAt, MAX_CLOSE_TAG_LEN,
      MAX_OPEN_TAG_LEN, THINKING_END_TAG, List.isPrefixOf]
    rw [processLoop]
    simp +decide [tpPhase1, tpPhase2, processBeforeThinking, processInsideThinking,
      bestOpenMatch, firstMatchPos, THINKING_TAG_VARIANTS, emitText, emitThinking,
      updateTextBlock, updateThinkingBlock, blockThinkingAt, MAX_CLOSE_TAG_LEN,
      MAX_OPEN_TAG_LEN, THINKING_END_TAG, List.isPrefixOf]
  rw [e1]
  refine ⟨rfl, rfl, rfl, by decide, by decide, rfl⟩

/-! ## C3 — frame scanner invariants -/

theorem findNextEventStartOff_anchor :
    ∀ (s : List Char) (o : Nat), findNextEventStartOff s = some o →
      matchesAnchor (s.drop o) = true := by
  intro s
  induction s with
  | nil => intro o h; simp [findNextEventStartOff] at h
  | cons c rest ih =>
      intro o h
      rw [findNextEventStartOff] at h
      by_cases hm : matchesAnchor (c :: rest) = true
      · rw [if_pos hm] at h
        cases h
        simpa using hm
      · rw [if_neg hm] at h
        simp only [Option.map_eq_some'] at h
        obtain ⟨o', ho', rfl⟩ := h
        simpa using ih o' ho'

theorem findNextEventStart_bound {cs : List Char} {pos j : Nat}
    (h : findNextEventStart cs pos = some j) :
    pos ≤ j ∧ matchesAnchor (cs.drop j) = true := by
  simp only [findNextEventStart, Option.map_eq_some'] at h
  obtain ⟨o, ho, rfl⟩ := h
  refine ⟨Nat.le_add_right pos o, ?_⟩
  have := findNextEventStartOff_anchor _ _ ho
  rw [List.drop_drop] at this
  exact this

theorem findJsonEnd_bound {cs : List Char} {s e : Nat}
    (h : findJsonEnd cs s = some e) : s ≤ e := by
  simp only [findJsonEnd, Option.map_eq_some'] at h
  obtain ⟨r, -, rfl⟩ := h
  exact Nat.le_add_right s r

theorem scanSpansGo_eq_stop (cs : List Char) (pos : Nat) (h : ¬pos < cs.length) :
    scanSpansGo cs pos = ([], []) := by
  rw [scanSpansGo, dif_neg h]

theorem scanSpansGo_eq_noAnchor (cs : List Char) (pos : Nat) (h : pos < cs.length)
    (hf : findNextEventStart cs pos = none) : scanSpansGo cs pos = ([], []) := by
  rw [scanSpansGo, dif_pos h]
  split
  · rfl
  · rename_i js hh
    rw [hf] at hh
    cases hh

theorem scanSpansGo_eq_trunc (cs : List Char) (pos jsonStart : Nat) (h : pos < cs.length)
    (hf : findNextEventStart cs pos = some jsonStart)
    (he : findJsonEnd cs jsonStart = none) :
    scanSpansGo cs pos = ([], cs.drop jsonStart) := by
  rw [scanSpansGo, dif_pos h]
  split
  · rename_i hh
    rw [hf] at hh
    cases hh
  · rename_i js hh
    rw [hf] at hh
    injection hh with hh
    subst hh
    split
    · rfl
    · rename_i je hh2
      rw [he] at hh2
      cases hh2

theorem scanSpansGo_eq_step (cs : List Char) (pos jsonStart jsonEnd : Nat)
    (h : pos < cs.length) (hf : findNextEventStart cs pos = some jsonStart)
    (he : findJsonEnd cs jsonStart = some jsonEnd) :
    scanSpansGo cs pos =
      ((jsonStart, jsonEnd) :: (scanSpansGo cs (jsonEnd + 1)).1,
        (scanSpansGo cs (jsonEnd + 1)).2) := by
  rw [scanSpansGo, dif_pos h]
  split
  · rename_i hh
    rw [hf] at hh
    cases hh
  · rename_i js hh
    rw [hf] at hh
    injection hh with hh
    subst hh
    split
    · rename_i hh2
      rw [he] at hh2
      cases hh2
    · rename_i je hh2
      rw [he] at hh2
      injection hh2 with hh2
      subst hh2
      rfl

theorem scanSpansGo_spec (cs : List Char) (pos : Nat) :
    (∀ sp ∈ (scanSpansGo cs pos).1, pos ≤ sp.1 ∧ sp.1 ≤ sp.2 ∧
        matchesAnchor (cs.drop sp.1) = true ∧ findJsonEnd cs sp.1 = some sp.2) ∧
      (scanSpansGo cs pos).1.Pairwise (fun a b => a.2 < b.1) ∧
      ((scanSpansGo cs pos).2 = [] ∨
        ∃ a, pos ≤ a ∧ matchesAnchor (cs.drop a) = true ∧ findJsonEnd cs a = none ∧
          (scanSpansGo cs pos).2 = cs.drop a ∧
          ∀ sp ∈ (scanSpansGo cs pos).1, sp.2 < a) := by
  by_cases h : pos < cs.length
  · cases hf : findNextEventStart cs pos with
    | none =>
        rw [scanSpansGo_eq_noAnchor cs pos h hf]
        simp
    | some jsonStart =>
        obtain ⟨hps, hanch⟩ := findNextEventStart_bound hf
        cases he : findJsonEnd cs jsonStart with
        | none =>
            rw [scanSpansGo_eq_trunc cs pos jsonStart h hf he]
            refine ⟨by simp, by simp, Or.inr ⟨jsonStart, hps, hanch, he, rfl, by simp⟩⟩
        | some jsonEnd =>
            have hse : jsonStart ≤ jsonEnd := findJsonEnd_bound he
            obtain ⟨ih1, ih2, ih3⟩ := scanSpansGo_spec cs (jsonEnd + 1)
            rw [scanSpansGo_eq_step cs pos jsonStart jsonEnd h hf he]
            refine ⟨?_, ?_, ?_⟩
            · intro sp hsp
              rcases List.mem_cons.mp hsp with rfl | hmem
              · exact ⟨hps, hse, hanch, he⟩
              · obtain ⟨h1, h2, h3, h4⟩ := ih1 sp hmem
                exact ⟨by omega, h2, h3, h4⟩
            · refine List.pairwise_cons.mpr ⟨?_, ih2⟩
              intro b hb
              have := (ih1 b hb).1
              simpa using by omega
            · rcases ih3 with hnil | ⟨a, ha1, ha2, ha3, ha4, ha5⟩
              · exact Or.inl hnil
              · refine Or.inr ⟨a, by omega, ha2, ha3, ha4, ?_⟩
                intro sp hsp
                rcases List.mem_cons.mp hsp with rfl | hmem
                · simpa using by omega
                · exact ha5 sp hmem
  · rw [scanSpansGo_eq_stop cs pos h]
    simp
termination_by cs.length - pos
decreasing_by
  simp only [findNextEventStart, Option.map_eq_some'] at hf
  simp only [findJsonEnd, Option.map_eq_some'] at he
  obtain ⟨o, -, rfl⟩ := hf
  obtain ⟨r, -, rfl⟩ := he
  omega

theorem parseKiroEventsGo_eq_stop {ε : Type} (parseFrag : List Char → Option ε)
    (cs : List Char) (pos : Nat) (h : ¬pos < cs.length) :
    parseKiroEventsGo parseFrag cs pos = ([], []) := by
  rw [parseKiroEventsGo, dif_neg h]

theorem parseKiroEventsGo_eq_noAnchor {ε : Type} (parseFrag : List Char → Option ε)
    (cs : List Char) (pos : Nat) (h : pos < cs.length)
    (hf : findNextEventStart cs pos = none) :
    parseKiroEventsGo parseFrag cs pos = ([], []) := by
  rw [parseKiroEventsGo, dif_pos h]
  split
  · rfl
  · rename_i js hh
    rw [hf] at hh
    cases hh

theorem parseKiroEventsGo_eq_trunc {ε : Type} (parseFrag : List Char → Option ε)
    (cs : List Char) (pos jsonStart : Nat) (h : pos < cs.length)
    (hf : findNextEventStart cs pos = some jsonStart)
    (he : findJsonEnd cs jsonStart = none) :
    parseKiroEventsGo parseFrag cs pos = ([], cs.drop jsonStart) := by
  rw [parseKiroEventsGo, dif_pos h]
  split
  · rename_i hh
    rw [hf] at hh
    cases hh
  · rename_i js hh
    rw [hf] at hh
    injection hh with hh
    subst hh
    split
    · rfl
    · rename_i je hh2
      rw [he] at hh2
      cases hh2

theorem parseKiroEventsGo_eq_step {ε : Type} (parseFrag : List Char → Option ε)
    (cs : List Char) (pos jsonStart jsonEnd : Nat) (h : pos < cs.length)
    (hf : findNextEventStart cs pos = some jsonStart)
    (he : findJsonEnd cs jsonStart = some jsonEnd) :
    parseKiroEventsGo parseFrag cs pos =
      (match parseFrag (extractFrag cs (jsonStart, jsonEnd)) with
       | some e => (e :: (parseKiroEventsGo parseFrag cs (jsonEnd + 1)).1,
           (parseKiroEventsGo parseFrag cs (jsonEnd + 1)).2)
       | none => parseKiroEventsGo parseFrag cs (jsonEnd + 1)) := by
  rw [parseKiroEventsGo, dif_pos h]
  split
  · rename_i hh
    rw [hf] at hh
    cases hh
  · rename_i js hh
    rw [hf] at hh
    injection hh with hh
    subst hh
    split
    · rename_i hh2
      rw [he] at hh2
      cases hh2
    · rename_i je hh2
      rw [he] at hh2
      injection hh2 with hh2
      subst hh2
      rfl

/-- The interleaved event collection of `parseKiroEvents` is exactly the
per-fragment parse over the fragment windows the scan walks, with the same
remainder: `JSON.parse`/classification of one fragment never influences
which fragments are scanned. -/
theorem parseKiroEventsGo_eq_spans {ε : Type} (parseFrag : List Char → Option ε)
    (cs : List Char) (pos : Nat) :
    parseKiroEventsGo parseFrag cs pos =
      ((scanSpansGo cs pos).1.filterMap (fun sp => parseFrag (extractFrag cs sp)),
        (scanSpansGo cs pos).2) := by
  by_cases h : pos < cs.length
  · cases hf : findNextEventStart cs pos with
    | none =>
        rw [parseKiroEventsGo_eq_noAnchor parseFrag cs pos h hf,
          scanSpansGo_eq_noAnchor cs pos h hf]
        simp
    | some jsonStart =>
        cases he : findJsonEnd cs jsonStart with
        | none =>
            rw [parseKiroEventsGo_eq_trunc parseFrag cs pos jsonStart h hf he,
              scanSpansGo_eq_trunc cs pos jsonStart h hf he]
            simp
        | some jsonEnd =>
            have ih := parseKiroEventsGo_eq_spans parseFrag cs (jsonEnd + 1)
            rw [parseKiroEventsGo_eq_step parseFrag cs pos jsonStart jsonEnd h hf he,
              scanSpansGo_eq_step cs pos jsonStart jsonEnd h hf he]
            rw [ih]
            cases hp : parseFrag (extractFrag cs (jsonStart, jsonEnd)) <;>
              simp [hp, List.filterMap_cons]
  · rw [parseKiroEventsGo_eq_stop parseFrag cs pos h, scanSpansGo_eq_stop cs pos h]
    simp
termination_by cs.length - pos
decreasing_by
  simp only [findNextEventStart, Option.map_eq_some'] at hf
  simp only [findJsonEnd, Option.map_eq_some'] at he
  obtain ⟨o, -, rfl⟩ := hf
  obtain ⟨r, -, rfl⟩ := he
  omega

/-- **C3.** For every buffer, the frame scanner extracts events only from
anchored brace-balanced fragments: the events are exactly the per-fragment
parses of the scan's fragment windows, each window starting at an anchor
match and ending at its balanced closing brace; the windows are ordered and
disjoint, so bytes before the first anchor or between a window's end and the
next anchor lie in no extracted fragment; if the last anchored fragment is
truncated (no balanced end), the remainder is the buffer's suffix from that
fragment's anchor, preserved verbatim, and every extracted window ends
before that anchor; a buffer with no truncated fragment yields an empty
remainder. -/
theorem frameScanner_spec {ε : Type} (parseFrag : List Char → Option ε)
    (buffer : List Char) :
    ((parseKiroEvents parseFrag buffer).1 =
        (scanSpans buffer).1.filterMap (fun sp => parseFrag (extractFrag buffer sp)) ∧
      (parseKiroEvents parseFrag buffer).2 = (scanSpans buffer).2) ∧
      (∀ sp ∈ (scanSpans buffer).1, sp.1 ≤ sp.2 ∧
        matchesAnchor (buffer.drop sp.1) = true ∧ findJsonEnd buffer sp.1 = some sp.2) ∧
      (scanSpans buffer).1.Pairwise (fun a b => a.2 < b.1) ∧
      ((scanSpans buffer).2 = [] ∨
        ∃ a, matchesAnchor (buffer.drop a) = true ∧ findJsonEnd buffer a = none ∧
          (scanSpans buffer).2 = buffer.drop a ∧
          ∀ sp ∈ (scanSpans buffer).1, sp.2 < a) := by
  obtain ⟨h1, h2, h3⟩ := scanSpansGo_spec buffer 0
  have hcorr := parseKiroEventsGo_eq_spans parseFrag buffer 0
  refine ⟨⟨?_, ?_⟩, ?_, h2, ?_⟩
  · rw [show (parseKiroEvents parseFrag buffer).1 = (parseKiroEventsGo parseFrag buffer 0).1
        from rfl, hcorr]
    rfl
  · rw [show (parseKiroEvents parseFrag buffer).2 = (parseKiroEventsGo parseFrag buffer 0).2
        from rfl, hcorr]
    rfl
  · intro sp hsp
    obtain ⟨-, hb, hc, hd⟩ := h1 sp hsp
    exact ⟨hb, hc, hd⟩
  · rcases h3 with hnil | ⟨a, -, ha2, ha3, ha4, ha5⟩
    · exact Or.inl hnil
    · exact Or.inr ⟨a, ha2, ha3, ha4, ha5⟩

/-! ## C8 — bracket fallback acceptance -/

theorem matchBracketAnchor_ne_nil {s : List Char} {p : List Char × Nat}
    (h : matchBracketAnchor s = some p) : s ≠ [] := by
  intro hnil
  subst hnil
  simp [matchBracketAnchor] at h

theorem matchBracketAnchor_consumed_pos {s nm : List Char} {c : Nat}
    (h : matchBracketAnchor s = some (nm, c)) : 1 ≤ c := by
  simp only [matchBracketAnchor] at h
  split_ifs at h
  injection h with h
  injection h with h1 h2
  omega

theorem findBracketMatchOff_spec :
    ∀ (s : List Char) (o : Nat) (nm : List Char) (c : Nat),
      findBracketMatchOff s = some (o, nm, c) →
      matchBracketAnchor (s.drop o) = some (nm, c) := by
  intro s
  induction s with
  | nil => intro o nm c h; simp [findBracketMatchOff] at h
  | cons d rest ih =>
      intro o nm c h
      rw [findBracketMatchOff] at h
      cases hm : matchBracketAnchor (d :: rest) with
      | some p =>
          rw [hm] at h
          injection h with h
          obtain ⟨rfl, rfl, rfl⟩ : o = 0 ∧ p.1 = nm ∧ p.2 = c := by
            cases p
            cases h
            exact ⟨rfl, rfl, rfl⟩
          simpa using hm
      | none =>
          rw [hm] at h
          simp only [Option.map_eq_some'] at h
          obtain ⟨r, hr, heq⟩ := h
          obtain ⟨rfl, rfl, rfl⟩ : r.1 + 1 = o ∧ r.2.1 = nm ∧ r.2.2 = c := by
            cases heq
            exact ⟨rfl, rfl, rfl⟩
          simpa using ih r.1 r.2.1 r.2.2 (by simpa using hr)

theorem bracketScanGo_eq_none {α : Type} (parse : List Char → Option α) (cs : List Char)
    (pos : Nat) (hf : findBracketMatchOff (cs.drop pos) = none) :
    bracketScanGo parse cs pos = ([], []) := by
  rw [bracketScanGo]
  split
  · rfl
  · rename_i o nm consumed hh
    rw [hf] at hh
    cases hh

theorem bracketScanGo_eq_some {α : Type} (parse : List Char → Option α) (cs : List Char)
    (pos o : Nat) (nm : List Char) (consumed : Nat)
    (hf : findBracketMatchOff (cs.drop pos) = some (o, nm, consumed))
    (hc : pos < cs.length ∧ pos < pos + o + consumed) :
    bracketScanGo parse cs pos =
      (match bracketAccept parse cs (pos + o + consumed) with
       | some ar => ((nm, ar.1) :: (bracketScanGo parse cs (pos + o + consumed)).1,
           (pos + o, ar.2) :: (bracketScanGo parse cs (pos + o + consumed)).2)
       | none => bracketScanGo parse cs (pos + o + consumed)) := by
  rw [bracketScanGo]
  split
  · rename_i hh
    rw [hf] at hh
    cases hh
  · rename_i o' nm' c' hh
    rw [hf] at hh
    injection hh with hh
    simp only [Prod.mk.injEq] at hh
    obtain ⟨rfl, rfl, rfl⟩ := hh
    rw [dif_pos hc]

theorem bracketAccept_spec {α : Type} (parse : List Char → Option α) (cs : List Char)
    (jsonStart : Nat) (args : α) (rEnd : Nat)
    (h : bracketAccept parse cs jsonStart = some (args, rEnd)) :
    jsCharIndexOf cs '{' jsonStart = some jsonStart ∧
      ∃ e aft, findJsonEnd cs jsonStart = some e ∧
        jsCharIndexOf cs ']' (e + 1) = some aft ∧
        jsTrim ((cs.drop (e + 1)).take (aft - (e + 1))) = [] ∧
        parse ((cs.drop jsonStart).take (e + 1 - jsonStart)) = some args ∧
        rEnd = aft + 1 := by
  unfold bracketAccept at h
  split at h
  · rename_i braceIdx hb
    split_ifs at h with hbi
    subst hbi
    split at h
    · rename_i e hj
      split at h
      · rename_i aft ha
        split_ifs at h with ht
        split at h
        · rename_i a hp
          simp only [Option.some.injEq, Prod.mk.injEq] at h
          obtain ⟨rfl, rfl⟩ := h
          exact ⟨hb, e, aft, hj, ha, ht, hp, rfl⟩
        · simp at h
      · simp at h
    · simp at h
  · simp at h

theorem bracketScanGo_accepted {α : Type} (parse : List Char → Option α) (cs : List Char)
    (pos : Nat) :
    ∀ tc ∈ (bracketScanGo parse cs pos).1, BracketAccepted parse cs tc := by
  cases hf : findBracketMatchOff (cs.drop pos) with
  | none =>
      rw [bracketScanGo_eq_none parse cs pos hf]
      simp
  | some r =>
      obtain ⟨o, nm, consumed⟩ := r
      have hanch := findBracketMatchOff_spec (cs.drop pos) o nm consumed hf
      have hc1 : 1 ≤ consumed := matchBracketAnchor_consumed_pos hanch
      have hne := matchBracketAnchor_ne_nil hanch
      have hlen : pos < cs.length := by
        have hlne : 0 < ((cs.drop pos).drop o).length := List.length_pos.mpr hne
        simp only [List.length_drop] at hlne
        omega
      have hc : pos < cs.length ∧ pos < pos + o + consumed := ⟨hlen, by omega⟩
      have ih := bracketScanGo_accepted parse cs (pos + o + consumed)
      rw [bracketScanGo_eq_some parse cs pos o nm consumed hf hc]
      rw [List.drop_drop] at hanch
      cases ha : bracketAccept parse cs (pos + o + consumed) with
      | none => exact ih
      | some ar =>
          intro tc htc
          rcases List.mem_cons.mp htc with rfl | hmem
          · obtain ⟨hbidx, e, aft, hj, hidx, htrim, hp, hre⟩ :=
              bracketAccept_spec parse cs (pos + o + consumed) ar.1 ar.2 (by simpa using ha)
            exact ⟨pos + o, consumed, e, aft, hanch, hbidx, hj, hidx, htrim, hp⟩
          · exact ih tc hmem
termination_by cs.length - pos
decreasing_by omega

theorem bracketScanGo_removals_nil {α : Type} (parse : List Char → Option α)
    (cs : List Char) (pos : Nat) :
    (bracketScanGo parse cs pos).1 = [] → (bracketScanGo parse cs pos).2 = [] := by
  cases hf : findBracketMatchOff (cs.drop pos) with
  | none =>
      rw [bracketScanGo_eq_none parse cs pos hf]
      intro
      rfl
  | some r =>
      obtain ⟨o, nm, consumed⟩ := r
      have hanch := findBracketMatchOff_spec (cs.drop pos) o nm consumed hf
      have hc1 : 1 ≤ consumed := matchBracketAnchor_consumed_pos hanch
      have hne := matchBracketAnchor_ne_nil hanch
      have hlen : pos < cs.length := by
        have hlne : 0 < ((cs.drop pos).drop o).length := List.length_pos.mpr hne
        simp only [List.length_drop] at hlne
        omega
      have hc : pos < cs.length ∧ pos < pos + o + consumed := ⟨hlen, by omega⟩
      have ih := bracketScanGo_removals_nil parse cs (pos + o + consumed)
      rw [bracketScanGo_eq_some parse cs pos o nm consumed hf hc]
      cases ha : bracketAccept parse cs (pos + o + consumed) with
      | none => exact ih
      | some ar =>
          intro hcontra
          simp at hcontra
termination_by cs.length - pos
decreasing_by omega

/-- **C8.** For every input text, the bracket fallback extractor records a
tool call only when the `{` sits exactly at the position following the
matched `[Called <name> with args: ` anchor, the brace-balanced JSON text
parses successfully, and only whitespace separates the closing `}` from the
following `]`; a rejected match records nothing and contributes no removal
span, so when no match is accepted the cleaned text equals the input text.
-/
theorem bracketFallback_spec {α : Type} (parse : List Char → Option α) (text : List Char) :
    ((parseBracketToolCalls parse text).1 = [] →
        (parseBracketToolCalls parse text).2 = text) ∧
      ∀ tc ∈ (parseBracketToolCalls parse text).1, BracketAccepted parse text tc := by
  constructor
  · intro h1
    have h2 := bracketScanGo_removals_nil parse text 0
      (by simpa [parseBracketToolCalls] using h1)
    simp [parseBracketToolCalls, h2, applyRemovals]
  · intro tc htc
    exact bracketScanGo_accepted parse text 0 tc
      (by simpa [parseBracketToolCalls] using htc)
